import Mathlib

/-
Verification of the scar dependency-graph engine (src/dependency_analyzer.rs,
src/use_cases.rs) against its natural-language specification.

Shallow embedding conventions:
- Rust `&str` is modelled as `List Char` (`Str`); string equality is list equality.
- `HashMap<&str, HashSet<&str>>` is modelled as a list of keys plus a total
  function from keys to duplicate-free lists (`InclusionGraph` below); `HashSet`
  insertion is `insertL`, which is a no-op on an element already present.
- `HashSet` iteration order is unspecified in Rust; the embedding fixes the
  insertion order as the concrete iteration order.
- Rust panics (`assert!`) are modelled as `Option.none` at the level of the
  function that contains the assert or that calls it; recoverable `Result`
  errors are modelled as `Except` inside the `Option`.
- The recursive `dfs_recursive` is embedded as `dfsRun`, its defunctionalized
  form: the stack of suspended neighbor loops is explicit (a list of frames),
  and a fuel parameter makes the recursion structural.  `dfsFuel` is proved to
  be enough fuel: adding more fuel does not change the result.
-/

namespace Scar

/-- Rust `&str`, modelled as its character list. -/
abbrev Str : Type := List Char

/-- Helper to write string literals as `Str`. -/
def str (s : String) : Str := s.toList

/-- `File` from src/file.rs: the scanned unit's identity (`name`) and its raw
reference list (`used_modules`).  Content parsing is out of scope. -/
structure File where
  name : Str
  used_modules : List Str
deriving DecidableEq

/-- `path.split("/")` specialised to the single separator `'/'`, as used by
`extract_filename_from_path`.  Always returns a non-empty list. -/
def splitSlash : List Char → List (List Char)
  | [] => [[]]
  | c :: rest =>
    if c = '/' then [] :: splitSlash rest
    else
      match splitSlash rest with
      | [] => [[c]]
      | h :: t => (c :: h) :: t

/-- `DependencyAnalyzer::extract_filename_from_path`: `path.split("/").last()`,
falling back to the whole path (the `None` arm, which is unreachable since
`split` always yields at least one token). -/
def extract_filename_from_path (path : Str) : Str :=
  (splitSlash path).getLastD path

theorem splitSlash_ne_nil (s : List Char) : splitSlash s ≠ [] := by
  cases s with
  | nil => simp [splitSlash]
  | cons c rest =>
    simp only [splitSlash]
    split
    · simp
    · split <;> simp

theorem getLastD_irrel {α : Type} (l : List α) (h : l ≠ []) (d e : α) :
    l.getLastD d = l.getLastD e := by
  cases l with
  | nil => exact absurd rfl h
  | cons a t => rw [List.getLastD_cons, List.getLastD_cons]

theorem splitSlash_no_slash {s : List Char} (h : '/' ∉ s) : splitSlash s = [s] := by
  induction s with
  | nil => simp [splitSlash]
  | cons c rest ih =>
    have hc : c ≠ '/' := fun hc => h (hc ▸ List.mem_cons_self c rest)
    have hr : '/' ∉ rest := fun hm => h (List.mem_cons_of_mem c hm)
    simp only [splitSlash, if_neg hc, ih hr]

/-- If the path has no forward slash it is returned unchanged. -/
theorem extract_no_slash {s : Str} (h : '/' ∉ s) : extract_filename_from_path s = s := by
  simp [extract_filename_from_path, splitSlash_no_slash h]

theorem no_slash_getLastD (s : List Char) :
    '/' ∉ (splitSlash s).getLastD [] := by
  induction s with
  | nil => simp [splitSlash]
  | cons c rest ih =>
    by_cases hc : c = '/'
    · simp only [splitSlash, if_pos hc, List.getLastD_cons]
      rw [getLastD_irrel _ (splitSlash_ne_nil rest) [] []] at *
      exact ih
    · simp only [splitSlash, if_neg hc]
      rcases hsp : splitSlash rest with _ | ⟨h1, t1⟩
      · exact absurd hsp (splitSlash_ne_nil rest)
      · rw [hsp] at ih
        cases t1 with
        | nil =>
          simp only [List.getLastD_cons, List.getLastD_nil] at ih ⊢
          intro hmem
          rcases List.mem_cons.mp hmem with h' | h'
          · exact hc h'.symm
          · exact ih h'
        | cons h2 t2 =>
          simp only [List.getLastD_cons] at ih ⊢
          exact ih

/-- The canonical name never contains a forward slash. -/
theorem extract_no_slash_result (s : Str) : '/' ∉ extract_filename_from_path s := by
  unfold extract_filename_from_path
  rw [getLastD_irrel _ (splitSlash_ne_nil s) s []]
  exact no_slash_getLastD s

/-- Canonicalization is idempotent. -/
theorem extract_idem (s : Str) :
    extract_filename_from_path (extract_filename_from_path s) =
      extract_filename_from_path s :=
  extract_no_slash (extract_no_slash_result s)

/-- `HashSet::insert` on a duplicate-free list: no-op when present, append when
absent. -/
def insertL (x : Str) (l : List Str) : List Str :=
  if x ∈ l then l else l ++ [x]

theorem mem_insertL {x y : Str} {l : List Str} :
    y ∈ insertL x l ↔ y = x ∨ y ∈ l := by
  unfold insertL
  split
  · next h => constructor
              · exact fun hy => Or.inr hy
              · rintro (rfl | hy)
                · exact h
                · exact hy
  · simp [or_comm]

theorem mem_insertL_self (x : Str) (l : List Str) : x ∈ insertL x l :=
  mem_insertL.mpr (Or.inl rfl)

theorem insertL_idem (x : Str) (l : List Str) :
    insertL x (insertL x l) = insertL x l := by
  unfold insertL
  split
  · next h => simp [h]
  · simp

theorem nodup_insertL {x : Str} {l : List Str} (h : l.Nodup) :
    (insertL x l).Nodup := by
  unfold insertL
  split
  · exact h
  · next hx => simp [List.nodup_append, h, hx]

/-- The `modules_inclusion` map: the key list of the `HashMap` together with the
value stored at each key (the duplicate-free list of full paths directly
including the key; `[]` for absent keys, matching `HashSet::new` on first
insertion). -/
structure InclusionGraph where
  keys : List Str
  incl : Str → List Str

/-- One iteration of the inner dependency loop of `DependencyAnalyzer::make`:
`modules_inclusion.entry(d).and_modify(insert path).or_insert({path})`. -/
def addRef (path : Str) (g : InclusionGraph) (d : Str) : InclusionGraph :=
  ⟨insertL d g.keys, fun k => if k = d then insertL path (g.incl k) else g.incl k⟩

/-- One iteration of the outer loop of `DependencyAnalyzer::make`: register the
unit's canonical name with an empty including-set if absent, then insert the
unit's full identity into each deduplicated, canonicalized reference's set. -/
def addFile (g : InclusionGraph) (f : File) : InclusionGraph :=
  let g1 : InclusionGraph := ⟨insertL (extract_filename_from_path f.name) g.keys, g.incl⟩
  ((f.used_modules.map extract_filename_from_path).dedup).foldl (addRef f.name) g1

/-- `DependencyAnalyzer::make`'s graph construction. -/
def makeGraph (files : List File) : InclusionGraph :=
  files.foldl addFile ⟨[], fun _ => []⟩

/-- The `DependencyAnalyzer` struct: the scanned files and the built
`modules_inclusion` map (the `debug` flag only gates printing and is omitted). -/
structure DependencyAnalyzer where
  files : List File
  modules_inclusion : InclusionGraph

/-- `DependencyAnalyzer::make` (its `Result` never carries an error). -/
def DependencyAnalyzer.make (files : List File) : DependencyAnalyzer :=
  ⟨files, makeGraph files⟩

theorem addRefs_incl (path : Str) (l : List Str) (g : InclusionGraph) (k : Str) :
    (l.foldl (addRef path) g).incl k =
      if k ∈ l then insertL path (g.incl k) else g.incl k := by
  induction l generalizing g with
  | nil => simp
  | cons d t ih =>
    rw [List.foldl_cons, ih]
    by_cases hkd : k = d
    · subst hkd
      by_cases hkt : k ∈ t <;> simp [addRef, hkt, insertL_idem]
    · by_cases hkt : k ∈ t <;> simp [addRef, hkt, hkd]

theorem addRefs_keys (path : Str) (l : List Str) (g : InclusionGraph) (k : Str) :
    k ∈ (l.foldl (addRef path) g).keys ↔ k ∈ l ∨ k ∈ g.keys := by
  induction l generalizing g with
  | nil => simp
  | cons d t ih =>
    rw [List.foldl_cons, ih]
    simp only [addRef, mem_insertL, List.mem_cons]
    tauto

theorem addFile_incl (g : InclusionGraph) (f : File) (k : Str) :
    (addFile g f).incl k =
      if k ∈ f.used_modules.map extract_filename_from_path then
        insertL f.name (g.incl k)
      else g.incl k := by
  unfold addFile
  rw [addRefs_incl]
  simp [List.mem_dedup]

theorem addFile_keys (g : InclusionGraph) (f : File) (k : Str) :
    k ∈ (addFile g f).keys ↔
      k ∈ f.used_modules.map extract_filename_from_path ∨
        k = extract_filename_from_path f.name ∨ k ∈ g.keys := by
  unfold addFile
  rw [addRefs_keys]
  simp [List.mem_dedup, mem_insertL]

theorem foldFiles_incl_mem (fs : List File) (g : InclusionGraph) (p k : Str) :
    p ∈ (fs.foldl addFile g).incl k ↔
      p ∈ g.incl k ∨
        ∃ f ∈ fs, f.name = p ∧ k ∈ f.used_modules.map extract_filename_from_path := by
  induction fs generalizing g with
  | nil => simp
  | cons f t ih =>
    rw [List.foldl_cons, ih]
    rw [addFile_incl]
    by_cases hk : k ∈ f.used_modules.map extract_filename_from_path
    · simp only [if_pos hk, mem_insertL]
      constructor
      · rintro ((rfl | hp) | hrest)
        · exact Or.inr ⟨f, List.mem_cons_self f t, rfl, hk⟩
        · exact Or.inl hp
        · rcases hrest with ⟨f', hf', hname, hmem⟩
          exact Or.inr ⟨f', List.mem_cons_of_mem f hf', hname, hmem⟩
      · rintro (hp | ⟨f', hf', hname, hmem⟩)
        · exact Or.inl (Or.inr hp)
        · rcases List.mem_cons.mp hf' with rfl | hf'
          · exact Or.inl (Or.inl hname.symm)
          · exact Or.inr ⟨f', hf', hname, hmem⟩
    · simp only [if_neg hk]
      constructor
      · rintro (hp | ⟨f', hf', hname, hmem⟩)
        · exact Or.inl hp
        · exact Or.inr ⟨f', List.mem_cons_of_mem f hf', hname, hmem⟩
      · rintro (hp | ⟨f', hf', hname, hmem⟩)
        · exact Or.inl hp
        · rcases List.mem_cons.mp hf' with rfl | hf'
          · exact absurd hmem hk
          · exact Or.inr ⟨f', hf', hname, hmem⟩

/-- Membership characterization of the built including-sets: `p` directly
includes `k` iff `p` is the identity of a scanned unit that listed `k`'s
canonical name among its canonicalized references. -/
theorem mem_makeGraph_incl (files : List File) (p k : Str) :
    p ∈ (makeGraph files).incl k ↔
      ∃ f ∈ files, f.name = p ∧ k ∈ f.used_modules.map extract_filename_from_path := by
  unfold makeGraph
  rw [foldFiles_incl_mem]
  simp

theorem foldFiles_keys_mem (fs : List File) (g : InclusionGraph) (k : Str) :
    k ∈ (fs.foldl addFile g).keys ↔
      k ∈ g.keys ∨
        ∃ f ∈ fs, k = extract_filename_from_path f.name ∨
          k ∈ f.used_modules.map extract_filename_from_path := by
  induction fs generalizing g with
  | nil => simp
  | cons f t ih =>
    rw [List.foldl_cons, ih, addFile_keys]
    constructor
    · rintro ((hm | hn | hg) | ⟨f', hf', hc⟩)
      · exact Or.inr ⟨f, List.mem_cons_self f t, Or.inr hm⟩
      · exact Or.inr ⟨f, List.mem_cons_self f t, Or.inl hn⟩
      · exact Or.inl hg
      · exact Or.inr ⟨f', List.mem_cons_of_mem f hf', hc⟩
    · rintro (hg | ⟨f', hf', hc⟩)
      · exact Or.inl (Or.inr (Or.inr hg))
      · rcases List.mem_cons.mp hf' with rfl | hf'
        · rcases hc with hc | hc
          · exact Or.inl (Or.inr (Or.inl hc))
          · exact Or.inl (Or.inl hc)
        · exact Or.inr ⟨f', hf', hc⟩

/-- Membership characterization of the built key set. -/
theorem mem_makeGraph_keys (files : List File) (k : Str) :
    k ∈ (makeGraph files).keys ↔
      ∃ f ∈ files, k = extract_filename_from_path f.name ∨
        k ∈ f.used_modules.map extract_filename_from_path := by
  unfold makeGraph
  rw [foldFiles_keys_mem]
  simp

theorem nodup_foldFiles_incl (fs : List File) (g : InclusionGraph)
    (h : ∀ k, (g.incl k).Nodup) : ∀ k, ((fs.foldl addFile g).incl k).Nodup := by
  induction fs generalizing g with
  | nil => exact h
  | cons f t ih =>
    rw [List.foldl_cons]
    refine ih _ (fun k => ?_)
    rw [addFile_incl]
    split
    · exact nodup_insertL (h k)
    · exact h k

/-- Every built including-set is duplicate-free (it models a `HashSet`). -/
theorem nodup_makeGraph_incl (files : List File) (k : Str) :
    ((makeGraph files).incl k).Nodup :=
  nodup_foldFiles_incl files _ (fun _ => List.nodup_nil) k

/-- Every element of a built including-set is the identity of a scanned file. -/
theorem makeGraph_incl_sub_names (files : List File) (p k : Str)
    (h : p ∈ (makeGraph files).incl k) : p ∈ files.map File.name := by
  rcases (mem_makeGraph_incl files p k).mp h with ⟨f, hf, hname, -⟩
  exact List.mem_map.mpr ⟨f, hf, hname⟩

/-- `adj_list.get(current)` in `dfs_recursive`: the neighbor list of a node, or
`[]` when the node is not a key of the map (the `None` arm of `if let Some`). -/
def nbrOf (g : InclusionGraph) (n : Str) : List Str :=
  if n ∈ g.keys then g.incl n else []

/-- The mutable traversal state of `dfs_tree`: the `visited` set (a cons-list,
newest first, mirroring `HashSet::insert`) and the `visit_order` vector.  The
debug-only `tree` edge map of `DFSTree` is print-only and omitted. -/
structure DfsState where
  visited : List Str
  order : List Str
deriving DecidableEq

instance {e a : Type} [DecidableEq e] [DecidableEq a] : DecidableEq (Except e a) := fun
  | Except.error x, Except.error y =>
    decidable_of_iff (x = y) (by constructor <;> (intro h; cases h; rfl))
  | Except.error _, Except.ok _ => isFalse (by intro h; cases h)
  | Except.ok _, Except.error _ => isFalse (by intro h; cases h)
  | Except.ok x, Except.ok y =>
    decidable_of_iff (x = y) (by constructor <;> (intro h; cases h; rfl))

/-- `dfs_recursive`, defunctionalized: the stack holds, innermost first, the
remaining neighbor iterations of the suspended recursive calls.  Popping an
unvisited node performs the body of `dfs_recursive` (mark visited, record the
visit, loop over the node's neighbors); popping a visited node is the
`!visited.contains(neighbor)` guard skipping it.  Fuel makes the recursion
structural; `dfsFuel` below always suffices. -/
def dfsRun (nbr : Str → List Str) : Nat → List (List Str) → DfsState → DfsState
  | 0, _, st => st
  | _ + 1, [], st => st
  | fuel + 1, [] :: stack, st => dfsRun nbr fuel stack st
  | fuel + 1, (n :: rest) :: stack, st =>
    if n ∈ st.visited then
      dfsRun nbr fuel (rest :: stack) st
    else
      dfsRun nbr fuel (nbr n :: rest :: stack) ⟨n :: st.visited, st.order ++ [n]⟩

/-- Concatenation of every including-set of the graph, used only to bound the
fuel needed by a traversal. -/
def inclAll (g : InclusionGraph) : List Str :=
  (g.keys.map g.incl).foldr (· ++ ·) []

/-- A finite universe containing every node a traversal from `start` can touch. -/
def dfsUniverse (g : InclusionGraph) (start : Str) : Finset Str :=
  (g.keys ++ inclAll g ++ [start]).toFinset

/-- Enough fuel for a full traversal from `start` (proved below). -/
def dfsFuel (g : InclusionGraph) (start : Str) : Nat :=
  2 + (dfsUniverse g start).card * ((inclAll g).length + 2)

/-- `DependencyAnalyzer::dfs_tree`.  `none` models the `assert!` panic on an
empty map; `Except.error` models the recoverable "Starting node not found"
error (carrying the missing node); `Except.ok` carries the finished traversal
state. -/
def dfs_tree (A : DependencyAnalyzer) (start : Str) : Option (Except Str DfsState) :=
  if A.modules_inclusion.keys = [] then none
  else if start ∈ A.modules_inclusion.keys then
    some (Except.ok (dfsRun (nbrOf A.modules_inclusion)
      (dfsFuel A.modules_inclusion start) [[start]] ⟨[], []⟩))
  else some (Except.error start)

theorem dfsRun_visited_mono (nbr : Str → List Str) :
    ∀ (fuel : Nat) (stack : List (List Str)) (st : DfsState) (x : Str),
      x ∈ st.visited → x ∈ (dfsRun nbr fuel stack st).visited := by
  intro fuel
  induction fuel with
  | zero => intro stack st x hx; simpa [dfsRun] using hx
  | succ fuel ih =>
    intro stack st x hx
    match stack with
    | [] => simpa [dfsRun] using hx
    | [] :: stack => rw [dfsRun]; exact ih stack st x hx
    | (n :: rest) :: stack =>
      rw [dfsRun]
      split
      · exact ih _ st x hx
      · exact ih _ _ x (List.mem_cons_of_mem n hx)

/-- Invariant: the visited set is exactly the visit order (reversed), and it
never acquires a duplicate — a visited node is never re-entered. -/
theorem dfsRun_visited_eq_reverse (nbr : Str → List Str) :
    ∀ (fuel : Nat) (stack : List (List Str)) (st : DfsState),
      st.visited = st.order.reverse → st.visited.Nodup →
      (dfsRun nbr fuel stack st).visited = (dfsRun nbr fuel stack st).order.reverse ∧
        (dfsRun nbr fuel stack st).visited.Nodup := by
  intro fuel
  induction fuel with
  | zero => intro stack st h1 h2; exact ⟨h1, h2⟩
  | succ fuel ih =>
    intro stack st h1 h2
    match stack with
    | [] => exact ⟨h1, h2⟩
    | [] :: stack => rw [dfsRun]; exact ih stack st h1 h2
    | (n :: rest) :: stack =>
      rw [dfsRun]
      split
      · exact ih _ st h1 h2
      · next hn =>
        refine ih _ _ ?_ ?_
        · simp [h1]
        · exact List.nodup_cons.mpr ⟨hn, h2⟩

/-- Soundness of the traversal: every visited node is the start node or was
reached through a raw including-path edge from another visited node. -/
theorem dfsRun_sound (nbr : Str → List Str) (s0 : Str) :
    ∀ (fuel : Nat) (stack : List (List Str)) (st : DfsState),
      (∀ v ∈ st.visited, v = s0 ∨ ∃ u ∈ st.visited, v ∈ nbr u) →
      (∀ fr ∈ stack, ∀ p ∈ fr, p = s0 ∨ ∃ u ∈ st.visited, p ∈ nbr u) →
      ∀ v ∈ (dfsRun nbr fuel stack st).visited,
        v = s0 ∨ ∃ u ∈ (dfsRun nbr fuel stack st).visited, v ∈ nbr u := by
  intro fuel
  induction fuel with
  | zero => intro stack st hv _ v hvv; exact hv v hvv
  | succ fuel ih =>
    intro stack st hv hf
    match stack with
    | [] => exact hv
    | [] :: stack =>
      rw [dfsRun]
      refine ih stack st hv (fun fr hfr p hp => hf fr (List.mem_cons_of_mem _ hfr) p hp)
    | (n :: rest) :: stack =>
      rw [dfsRun]
      split
      · next hn =>
        refine ih _ st hv (fun fr hfr p hp => ?_)
        rcases List.mem_cons.mp hfr with rfl | hfr
        · exact hf (n :: fr) (List.mem_cons_self _ _) p (List.mem_cons_of_mem n hp)
        · exact hf fr (List.mem_cons_of_mem _ hfr) p hp
      · next hn =>
        have hnprop : n = s0 ∨ ∃ u ∈ st.visited, n ∈ nbr u :=
          hf (n :: rest) (List.mem_cons_self _ _) n (List.mem_cons_self _ _)
        refine ih _ _ ?_ ?_
        · intro v hvv
          rcases List.mem_cons.mp hvv with rfl | hvv
          · rcases hnprop with h | ⟨u, hu, hnu⟩
            · exact Or.inl h
            · exact Or.inr ⟨u, List.mem_cons_of_mem _ hu, hnu⟩
          · rcases hv v hvv with h | ⟨u, hu, hvu⟩
            · exact Or.inl h
            · exact Or.inr ⟨u, List.mem_cons_of_mem _ hu, hvu⟩
        · intro fr hfr p hp
          rcases List.mem_cons.mp hfr with rfl | hfr
          · exact Or.inr ⟨n, List.mem_cons_self n _, hp⟩
          · rcases List.mem_cons.mp hfr with rfl | hfr
            · rcases hf (n :: fr) (List.mem_cons_self _ _) p (List.mem_cons_of_mem n hp)
                with h | ⟨u, hu, hpu⟩
              · exact Or.inl h
              · exact Or.inr ⟨u, List.mem_cons_of_mem _ hu, hpu⟩
            · rcases hf fr (List.mem_cons_of_mem _ hfr) p hp with h | ⟨u, hu, hpu⟩
              · exact Or.inl h
              · exact Or.inr ⟨u, List.mem_cons_of_mem _ hu, hpu⟩

/-- Weight of the pending-frames stack: one unit per frame plus one per
remaining neighbor. -/
def frameWeight (stack : List (List Str)) : Nat :=
  (stack.map (fun fr => fr.length + 1)).sum

/-- Termination measure for `dfsRun`: pending work plus a budget of `K + 2`
steps for each not-yet-visited node of the universe `U`. -/
def dfsMeasure (U : Finset Str) (K : Nat) (stack : List (List Str)) (st : DfsState) : Nat :=
  frameWeight stack + (U \ st.visited.toFinset).card * (K + 2)

/-- Every pending neighbor lies in the universe `U`. -/
def framesSub (stack : List (List Str)) (U : Finset Str) : Prop :=
  ∀ fr ∈ stack, ∀ n ∈ fr, n ∈ U

theorem frameWeight_eq_zero {stack : List (List Str)} (h : frameWeight stack = 0) :
    stack = [] := by
  cases stack with
  | nil => rfl
  | cons fr stk => simp [frameWeight] at h

theorem dfsMeasure_visit (U : Finset Str) (K : Nat) (n : Str) (rest : List Str)
    (stack : List (List Str)) (st : DfsState) (hn : n ∈ U)
    (hnv : n ∉ st.visited)
    (a : Nat) (ha : a ≤ K) :
    a + 1 + (rest.length + 1) + frameWeight stack +
        (U \ (⟨n :: st.visited, st.order ++ [n]⟩ : DfsState).visited.toFinset).card * (K + 2) + 2 ≤
      dfsMeasure U K ((n :: rest) :: stack) st := by
  have hvt : (⟨n :: st.visited, st.order ++ [n]⟩ : DfsState).visited.toFinset =
      insert n st.visited.toFinset := by
    simp
  have hnvt : n ∉ st.visited.toFinset := by
    simpa using hnv
  have hmem : n ∈ U \ st.visited.toFinset := Finset.mem_sdiff.mpr ⟨hn, hnvt⟩
  have hcard : (U \ insert n st.visited.toFinset).card =
      (U \ st.visited.toFinset).card - 1 := by
    rw [Finset.sdiff_insert, Finset.card_erase_of_mem hmem]
  have hpos : 1 ≤ (U \ st.visited.toFinset).card := Finset.card_pos.mpr ⟨n, hmem⟩
  set c := (U \ st.visited.toFinset).card with hc
  have hsplit : c * (K + 2) = (c - 1) * (K + 2) + (K + 2) := by
    have : c = (c - 1) + 1 := (Nat.succ_pred_eq_of_pos hpos).symm
    calc c * (K + 2) = ((c - 1) + 1) * (K + 2) := by rw [← this]
    _ = (c - 1) * (K + 2) + (K + 2) := by rw [Nat.succ_mul]
  rw [hvt, hcard]
  unfold dfsMeasure frameWeight
  simp only [List.map_cons, List.sum_cons, List.length_cons, List.length_nil]
  rw [hsplit]
  omega

theorem dfsRun_succ_eq (nbr : Str → List Str) (U : Finset Str) (K : Nat)
    (HU : ∀ x, ∀ p ∈ nbr x, p ∈ U) (HK : ∀ x, (nbr x).length ≤ K) :
    ∀ (fuel : Nat) (stack : List (List Str)) (st : DfsState),
      framesSub stack U → dfsMeasure U K stack st ≤ fuel →
      dfsRun nbr (fuel + 1) stack st = dfsRun nbr fuel stack st := by
  intro fuel
  induction fuel with
  | zero =>
    intro stack st _ hm
    have hz : frameWeight stack = 0 := by
      unfold dfsMeasure at hm; omega
    rw [frameWeight_eq_zero hz]
    rfl
  | succ fuel ih =>
    intro stack st hsub hm
    match stack with
    | [] => rfl
    | [] :: stk =>
      rw [dfsRun, dfsRun]
      refine ih stk st (fun fr hfr => hsub fr (List.mem_cons_of_mem _ hfr)) ?_
      have : dfsMeasure U K ([] :: stk) st = dfsMeasure U K stk st + 1 := by
        unfold dfsMeasure frameWeight
        simp only [List.map_cons, List.sum_cons, List.length_cons, List.length_nil]
        omega
      omega
    | (n :: rest) :: stk =>
      rw [dfsRun, dfsRun]
      split
      · refine ih (rest :: stk) st (fun fr hfr p hp => ?_) ?_
        · rcases List.mem_cons.mp hfr with rfl | hfr
          · exact hsub (n :: fr) (List.mem_cons_self _ _) p (List.mem_cons_of_mem n hp)
          · exact hsub fr (List.mem_cons_of_mem _ hfr) p hp
        · have : dfsMeasure U K ((n :: rest) :: stk) st =
              dfsMeasure U K (rest :: stk) st + 1 := by
            unfold dfsMeasure frameWeight
            simp only [List.map_cons, List.sum_cons, List.length_cons, List.length_nil]
            omega
          omega
      · next hnv =>
        have hn : n ∈ U :=
          hsub (n :: rest) (List.mem_cons_self _ _) n (List.mem_cons_self _ _)
        refine ih (nbr n :: rest :: stk) _ (fun fr hfr p hp => ?_) ?_
        · rcases List.mem_cons.mp hfr with rfl | hfr
          · exact HU n p hp
          · rcases List.mem_cons.mp hfr with rfl | hfr
            · exact hsub (n :: fr) (List.mem_cons_self _ _) p (List.mem_cons_of_mem n hp)
            · exact hsub fr (List.mem_cons_of_mem _ hfr) p hp
        · have hkey := dfsMeasure_visit U K n rest stk st hn hnv
            (nbr n).length (HK n)
          have hexp : dfsMeasure U K (nbr n :: rest :: stk)
              ⟨n :: st.visited, st.order ++ [n]⟩ =
              (nbr n).length + 1 + (rest.length + 1) + frameWeight stk +
                (U \ (⟨n :: st.visited, st.order ++ [n]⟩ : DfsState).visited.toFinset).card
                  * (K + 2) := by
            unfold dfsMeasure frameWeight
            simp only [List.map_cons, List.sum_cons, List.length_cons, List.length_nil]
            omega
          rw [hexp]
          omega

/-- Fuel stability: any fuel at least the measure produces the same result. -/
theorem dfsRun_eq_of_le (nbr : Str → List Str) (U : Finset Str) (K : Nat)
    (HU : ∀ x, ∀ p ∈ nbr x, p ∈ U) (HK : ∀ x, (nbr x).length ≤ K)
    (stack : List (List Str)) (st : DfsState) (f f' : Nat)
    (hsub : framesSub stack U) (hm : dfsMeasure U K stack st ≤ f) (hf : f ≤ f') :
    dfsRun nbr f' stack st = dfsRun nbr f stack st := by
  induction f' with
  | zero =>
    have : f = 0 := Nat.le_zero.mp hf
    rw [this]
  | succ f' ih =>
    rcases Nat.lt_or_ge f (f' + 1) with hlt | hge
    · have hle : f ≤ f' := Nat.lt_succ_iff.mp hlt
      rw [dfsRun_succ_eq nbr U K HU HK f' stack st hsub (le_trans hm hle)]
      exact ih hle
    · have : f = f' + 1 := le_antisymm hf hge
      rw [this]

/-- Closure of the traversal: with enough fuel, every neighbor of a visited
node is itself visited (the pending frames account for the not-yet-expanded
neighbors). -/
theorem dfsRun_closed (nbr : Str → List Str) (U : Finset Str) (K : Nat)
    (HU : ∀ x, ∀ p ∈ nbr x, p ∈ U) (HK : ∀ x, (nbr x).length ≤ K) :
    ∀ (fuel : Nat) (stack : List (List Str)) (st : DfsState),
      framesSub stack U → dfsMeasure U K stack st ≤ fuel →
      (∀ u ∈ st.visited, ∀ p ∈ nbr u, p ∈ st.visited ∨ ∃ fr ∈ stack, p ∈ fr) →
      ∀ u ∈ (dfsRun nbr fuel stack st).visited, ∀ p ∈ nbr u,
        p ∈ (dfsRun nbr fuel stack st).visited := by
  intro fuel
  induction fuel with
  | zero =>
    intro stack st _ hm hinv
    have hz : frameWeight stack = 0 := by
      unfold dfsMeasure at hm; omega
    have hstack : stack = [] := frameWeight_eq_zero hz
    subst hstack
    intro u hu p hp
    rcases hinv u hu p hp with h | ⟨fr, hfr, -⟩
    · exact h
    · exact absurd hfr (List.not_mem_nil fr)
  | succ fuel ih =>
    intro stack st hsub hm hinv
    match stack with
    | [] =>
      intro u hu p hp
      rcases hinv u hu p hp with h | ⟨fr, hfr, -⟩
      · exact h
      · exact absurd hfr (List.not_mem_nil fr)
    | [] :: stk =>
      rw [dfsRun]
      refine ih stk st (fun fr hfr => hsub fr (List.mem_cons_of_mem _ hfr)) ?_ ?_
      · have : dfsMeasure U K ([] :: stk) st = dfsMeasure U K stk st + 1 := by
          unfold dfsMeasure frameWeight
          simp only [List.map_cons, List.sum_cons, List.length_cons, List.length_nil]
          omega
        omega
      · intro u hu p hp
        rcases hinv u hu p hp with h | ⟨fr, hfr, hpfr⟩
        · exact Or.inl h
        · rcases List.mem_cons.mp hfr with rfl | hfr
          · exact absurd hpfr (List.not_mem_nil p)
          · exact Or.inr ⟨fr, hfr, hpfr⟩
    | (n :: rest) :: stk =>
      rw [dfsRun]
      split
      · next hnv =>
        refine ih (rest :: stk) st (fun fr hfr p hp => ?_) ?_ ?_
        · rcases List.mem_cons.mp hfr with rfl | hfr
          · exact hsub (n :: fr) (List.mem_cons_self _ _) p (List.mem_cons_of_mem n hp)
          · exact hsub fr (List.mem_cons_of_mem _ hfr) p hp
        · have : dfsMeasure U K ((n :: rest) :: stk) st =
              dfsMeasure U K (rest :: stk) st + 1 := by
            unfold dfsMeasure frameWeight
            simp only [List.map_cons, List.sum_cons, List.length_cons, List.length_nil]
            omega
          omega
        · intro u hu p hp
          rcases hinv u hu p hp with h | ⟨fr, hfr, hpfr⟩
          · exact Or.inl h
          · rcases List.mem_cons.mp hfr with rfl | hfr
            · rcases List.mem_cons.mp hpfr with rfl | hpfr
              · exact Or.inl hnv
              · exact Or.inr ⟨rest, List.mem_cons_self _ _, hpfr⟩
            · exact Or.inr ⟨fr, List.mem_cons_of_mem _ hfr, hpfr⟩
      · next hnv =>
        have hn : n ∈ U :=
          hsub (n :: rest) (List.mem_cons_self _ _) n (List.mem_cons_self _ _)
        refine ih (nbr n :: rest :: stk) _ (fun fr hfr p hp => ?_) ?_ ?_
        · rcases List.mem_cons.mp hfr with rfl | hfr
          · exact HU n p hp
          · rcases List.mem_cons.mp hfr with rfl | hfr
            · exact hsub (n :: fr) (List.mem_cons_self _ _) p (List.mem_cons_of_mem n hp)
            · exact hsub fr (List.mem_cons_of_mem _ hfr) p hp
        · have hkey := dfsMeasure_visit U K n rest stk st hn hnv
            (nbr n).length (HK n)
          have hexp : dfsMeasure U K (nbr n :: rest :: stk)
              ⟨n :: st.visited, st.order ++ [n]⟩ =
              (nbr n).length + 1 + (rest.length + 1) + frameWeight stk +
                (U \ (⟨n :: st.visited, st.order ++ [n]⟩ : DfsState).visited.toFinset).card
                  * (K + 2) := by
            unfold dfsMeasure frameWeight
            simp only [List.map_cons, List.sum_cons, List.length_cons, List.length_nil]
            omega
          rw [hexp]
          omega
        · intro u hu p hp
          rcases List.mem_cons.mp hu with rfl | hu
          · exact Or.inr ⟨nbr u, List.mem_cons_self _ _, hp⟩
          · rcases hinv u hu p hp with h | ⟨fr, hfr, hpfr⟩
            · exact Or.inl (List.mem_cons_of_mem n h)
            · rcases List.mem_cons.mp hfr with rfl | hfr
              · rcases List.mem_cons.mp hpfr with rfl | hpfr
                · exact Or.inl (List.mem_cons_self p _)
                · exact Or.inr ⟨rest, List.mem_cons_of_mem _ (List.mem_cons_self _ _), hpfr⟩
              · exact Or.inr ⟨fr, List.mem_cons_of_mem _ (List.mem_cons_of_mem _ hfr), hpfr⟩

theorem mem_foldr_append {ls : List (List Str)} {l : List Str} (hl : l ∈ ls) :
    ∀ p ∈ l, p ∈ ls.foldr (· ++ ·) [] := by
  induction ls with
  | nil => exact absurd hl (List.not_mem_nil l)
  | cons hd tl ih =>
    intro p hp
    rcases List.mem_cons.mp hl with rfl | hl
    · exact List.mem_append.mpr (Or.inl hp)
    · exact List.mem_append.mpr (Or.inr (ih hl p hp))

theorem length_le_foldr_append {ls : List (List Str)} {l : List Str} (hl : l ∈ ls) :
    l.length ≤ (ls.foldr (· ++ ·) []).length := by
  induction ls with
  | nil => exact absurd hl (List.not_mem_nil l)
  | cons hd tl ih =>
    rcases List.mem_cons.mp hl with rfl | hl
    · simp
    · calc l.length ≤ (tl.foldr (· ++ ·) []).length := ih hl
      _ ≤ (hd ++ tl.foldr (· ++ ·) []).length := by simp
      _ = ((hd :: tl).foldr (· ++ ·) []).length := by rfl

theorem nbrOf_sub_universe (g : InclusionGraph) (start : Str) :
    ∀ x, ∀ p ∈ nbrOf g x, p ∈ dfsUniverse g start := by
  intro x p hp
  unfold nbrOf at hp
  split at hp
  · next hx =>
    have : p ∈ inclAll g :=
      mem_foldr_append (List.mem_map.mpr ⟨x, hx, rfl⟩) p hp
    simp [dfsUniverse, this]
  · exact absurd hp (List.not_mem_nil p)

theorem nbrOf_length_le (g : InclusionGraph) :
    ∀ x, (nbrOf g x).length ≤ (inclAll g).length := by
  intro x
  unfold nbrOf
  split
  · next hx => exact length_le_foldr_append (List.mem_map.mpr ⟨x, hx, rfl⟩)
  · simp

theorem dfsMeasure_init (g : InclusionGraph) (start : Str) :
    dfsMeasure (dfsUniverse g start) ((inclAll g).length) [[start]] ⟨[], []⟩ =
      dfsFuel g start := by
  unfold dfsMeasure dfsFuel frameWeight
  simp

theorem framesSub_init (g : InclusionGraph) (start : Str) :
    framesSub [[start]] (dfsUniverse g start) := by
  intro fr hfr p hp
  rcases List.mem_cons.mp hfr with rfl | hfr
  · rcases List.mem_cons.mp hp with rfl | hp
    · simp [dfsUniverse]
    · exact absurd hp (List.not_mem_nil p)
  · exact absurd hfr (List.not_mem_nil fr)

/-- Unfolding `dfs_tree` on a successful traversal. -/
theorem dfs_tree_ok (A : DependencyAnalyzer) (start : Str) (t : DfsState)
    (h : dfs_tree A start = some (Except.ok t)) :
    A.modules_inclusion.keys ≠ [] ∧ start ∈ A.modules_inclusion.keys ∧
      t = dfsRun (nbrOf A.modules_inclusion) (dfsFuel A.modules_inclusion start)
        [[start]] ⟨[], []⟩ := by
  unfold dfs_tree at h
  split at h
  · exact absurd h (by simp)
  · next hkeys =>
    split at h
    · next hmem =>
      refine ⟨hkeys, hmem, ?_⟩
      have := Option.some.inj h
      exact (Except.ok.inj this).symm
    · exact absurd h (by simp)

/-- The starting node is always in the finished visited set. -/
theorem dfs_tree_start_mem (A : DependencyAnalyzer) (start : Str) (t : DfsState)
    (h : dfs_tree A start = some (Except.ok t)) : start ∈ t.visited := by
  obtain ⟨-, -, ht⟩ := dfs_tree_ok A start t h
  subst ht
  have hfuel : ∃ f, dfsFuel A.modules_inclusion start = f + 1 :=
    ⟨1 + (dfsUniverse A.modules_inclusion start).card *
      ((inclAll A.modules_inclusion).length + 2), by unfold dfsFuel; ring⟩
  obtain ⟨f, hf⟩ := hfuel
  rw [hf, dfsRun]
  simp only [List.not_mem_nil, if_neg]
  exact dfsRun_visited_mono _ f _ _ start (List.mem_cons_self _ _)

/-- The finished visited set is closed under raw including-path edges. -/
theorem dfs_tree_closed (A : DependencyAnalyzer) (start : Str) (t : DfsState)
    (h : dfs_tree A start = some (Except.ok t)) :
    ∀ u ∈ t.visited, ∀ p ∈ nbrOf A.modules_inclusion u, p ∈ t.visited := by
  obtain ⟨-, -, ht⟩ := dfs_tree_ok A start t h
  subst ht
  refine dfsRun_closed (nbrOf A.modules_inclusion) (dfsUniverse A.modules_inclusion start)
    ((inclAll A.modules_inclusion).length)
    (nbrOf_sub_universe A.modules_inclusion start) (nbrOf_length_le A.modules_inclusion)
    (dfsFuel A.modules_inclusion start) [[start]] ⟨[], []⟩
    (framesSub_init A.modules_inclusion start) (le_of_eq (dfsMeasure_init _ _))
    (fun u hu => absurd hu (List.not_mem_nil u))

/-- Every finished visited node is the start or was entered through a raw edge. -/
theorem dfs_tree_sound (A : DependencyAnalyzer) (start : Str) (t : DfsState)
    (h : dfs_tree A start = some (Except.ok t)) :
    ∀ v ∈ t.visited, v = start ∨ ∃ u ∈ t.visited, v ∈ nbrOf A.modules_inclusion u := by
  obtain ⟨-, -, ht⟩ := dfs_tree_ok A start t h
  subst ht
  refine dfsRun_sound (nbrOf A.modules_inclusion) start
    (dfsFuel A.modules_inclusion start) [[start]] ⟨[], []⟩
    (fun v hv => absurd hv (List.not_mem_nil v)) ?_
  intro fr hfr p hp
  rcases List.mem_cons.mp hfr with rfl | hfr
  · rcases List.mem_cons.mp hp with rfl | hp
    · exact Or.inl rfl
    · exact absurd hp (List.not_mem_nil p)
  · exact absurd hfr (List.not_mem_nil fr)

/-- The finished state's visited set is the reversed visit order, without
duplicates. -/
theorem dfs_tree_nodup (A : DependencyAnalyzer) (start : Str) (t : DfsState)
    (h : dfs_tree A start = some (Except.ok t)) :
    t.visited = t.order.reverse ∧ t.visited.Nodup := by
  obtain ⟨-, -, ht⟩ := dfs_tree_ok A start t h
  subst ht
  exact dfsRun_visited_eq_reverse (nbrOf A.modules_inclusion)
    (dfsFuel A.modules_inclusion start) [[start]] ⟨[], []⟩ (by simp) List.nodup_nil

/-- Termination: any fuel not below `dfsFuel` yields the same finished state. -/
theorem dfs_tree_fuel_stable (A : DependencyAnalyzer) (start : Str) (t : DfsState)
    (h : dfs_tree A start = some (Except.ok t)) :
    ∀ f, dfsFuel A.modules_inclusion start ≤ f →
      dfsRun (nbrOf A.modules_inclusion) f [[start]] ⟨[], []⟩ = t := by
  obtain ⟨-, -, ht⟩ := dfs_tree_ok A start t h
  subst ht
  intro f hf
  exact dfsRun_eq_of_le (nbrOf A.modules_inclusion)
    (dfsUniverse A.modules_inclusion start) ((inclAll A.modules_inclusion).length)
    (nbrOf_sub_universe A.modules_inclusion start) (nbrOf_length_le A.modules_inclusion)
    [[start]] ⟨[], []⟩ (dfsFuel A.modules_inclusion start) f
    (framesSub_init A.modules_inclusion start) (le_of_eq (dfsMeasure_init _ _)) hf

/-- `DependencyEntry`: a node name together with its associated path set
(direct including-set or impacted set). -/
structure DependencyEntry where
  file_name : Str
  including_files_paths : Finset Str
deriving DecidableEq

/-- `DependencyAnalyzer::get_included_files`: all graph keys; the `assert!` on
emptiness is modelled as `none`. -/
def get_included_files (A : DependencyAnalyzer) : Option (List Str) :=
  if A.modules_inclusion.keys = [] then none else some A.modules_inclusion.keys

/-- `DependencyAnalyzer::filter_outside_inclusions`: keep only candidates that
equal the (raw, full) identity of some scanned file. -/
def filter_outside_inclusions (A : DependencyAnalyzer) (included_files : List Str) :
    List Str :=
  included_files.filter (fun c => decide (c ∈ A.files.map File.name))

/-- Descending order on including-set size, the comparator of both
`sort_by` calls (`b.len().cmp(&a.len())`). -/
def entryGE (a b : DependencyEntry) : Prop :=
  b.including_files_paths.card ≤ a.including_files_paths.card

instance : DecidableRel entryGE := fun _ _ =>
  inferInstanceAs (Decidable (_ ≤ _))

/-- `DependencyAnalyzer::get_sorted_inclusion_impl`: sort candidates by
including-set size, descending (Rust's stable `sort_by` is modelled by the
stable insertion sort), and attach each node's including-set. -/
def get_sorted_inclusion_impl (A : DependencyAnalyzer) (included_files : List Str) :
    List DependencyEntry :=
  ((included_files.map
      (fun f => DependencyEntry.mk f (A.modules_inclusion.incl f).toFinset)).insertionSort
    entryGE)

/-- `DependencyAnalyzer::get_sorted_inclusion`. -/
def get_sorted_inclusion (A : DependencyAnalyzer) : Option (List DependencyEntry) :=
  (get_included_files A).map (get_sorted_inclusion_impl A)

/-- `DependencyAnalyzer::get_sorted_inclusion_no_external`. -/
def get_sorted_inclusion_no_external (A : DependencyAnalyzer) :
    Option (List DependencyEntry) :=
  (get_included_files A).map
    (fun l => get_sorted_inclusion_impl A (filter_outside_inclusions A l))

/-- The `DependencyEntry` built for one impact candidate inside
`get_sorted_impact_impl`: the visit order without the start node, restricted to
paths that are identities of scanned files, collected into a set. -/
def impactEntry (A : DependencyAnalyzer) (inc : Str) (t : DfsState) : DependencyEntry :=
  ⟨inc, ((t.order.filter (fun v => decide (v ≠ inc))).filter
      (fun v => decide (v ∈ A.files.map File.name))).toFinset⟩

/-- The candidate loop of `get_sorted_impact_impl`: a failed `dfs_tree` is
printed and skipped; a panic (`none`) aborts everything. -/
def impactEntries (A : DependencyAnalyzer) : List Str → Option (List DependencyEntry)
  | [] => some []
  | inc :: rest =>
    match dfs_tree A inc with
    | none => none
    | some (Except.error _) => impactEntries A rest
    | some (Except.ok t) =>
      match impactEntries A rest with
      | none => none
      | some es => some (impactEntry A inc t :: es)

/-- `DependencyAnalyzer::get_sorted_impact_impl`: build the entries, then sort
by impacted-set size, descending. -/
def get_sorted_impact_impl (A : DependencyAnalyzer) (included_files : List Str) :
    Option (List DependencyEntry) :=
  (impactEntries A included_files).map (fun es => es.insertionSort entryGE)

/-- `DependencyAnalyzer::get_sorted_impact`. -/
def get_sorted_impact (A : DependencyAnalyzer) : Option (List DependencyEntry) :=
  match get_included_files A with
  | none => none
  | some l => get_sorted_impact_impl A l

/-- `DependencyAnalyzer::get_sorted_impact_no_external`. -/
def get_sorted_impact_no_external (A : DependencyAnalyzer) :
    Option (List DependencyEntry) :=
  match get_included_files A with
  | none => none
  | some l => get_sorted_impact_impl A (filter_outside_inclusions A l)

/-- `get_slice_up_to` from src/use_cases.rs: the whole slice when it is not
longer than `num`, otherwise its first `num` elements. -/
def get_slice_up_to {α : Type} (slice : List α) (num : Nat) : List α :=
  if slice.length ≤ num then slice else slice.take num

/-- Spec-described neighbor function: "A path is converted to a canonical node
name before being used as the next traversal key."  Used only to compare the
spec's description of the traversal against the implemented one. -/
def nbrCanonical (g : InclusionGraph) (n : Str) : List Str :=
  (nbrOf g n).map extract_filename_from_path

/-- Fuel bound for the spec-described traversal (universe enlarged by the
canonical images of all including-paths). -/
def dfsFuelCanonical (g : InclusionGraph) (start : Str) : Nat :=
  2 + ((g.keys ++ inclAll g ++ (inclAll g).map extract_filename_from_path
      ++ [start]).toFinset).card * ((inclAll g).length + 2)

/-- The traversal as the spec describes it (canonicalizing each path before it
becomes the next traversal key), for comparison with `dfs_tree`. -/
def dfs_tree_specCanonical (A : DependencyAnalyzer) (start : Str) :
    Option (Except Str DfsState) :=
  if A.modules_inclusion.keys = [] then none
  else if start ∈ A.modules_inclusion.keys then
    some (Except.ok (dfsRun (nbrCanonical A.modules_inclusion)
      (dfsFuelCanonical A.modules_inclusion start) [[start]] ⟨[], []⟩))
  else some (Except.error start)

end Scar

namespace Scar

/-- C9: canonicalization is idempotent, and a string without a forward slash
(backslash-separated strings included) is returned unchanged. -/
theorem canonicalization_idem_and_no_slash (s : Str) :
    extract_filename_from_path (extract_filename_from_path s) =
        extract_filename_from_path s ∧
      ('/' ∉ s → extract_filename_from_path s = s) :=
  ⟨extract_idem s, fun h => extract_no_slash h⟩

/-- C9 witness: a backslash-separated path is not split and passes through
whole. -/
theorem canonicalization_idem_and_no_slash_witness :
    extract_filename_from_path (str "include\\foobar.h") = str "include\\foobar.h" :=
  (canonicalization_idem_and_no_slash (str "include\\foobar.h")).2 (by decide)

/-- C10: `get_slice_up_to` returns the whole slice when `num` is at least the
length, and exactly the first `num` elements otherwise (no out-of-bounds
access is possible: the result is always a prefix of the slice). -/
theorem get_slice_up_to_spec {α : Type} (slice : List α) (num : Nat) :
    (slice.length ≤ num → get_slice_up_to slice num = slice) ∧
      (num < slice.length →
        get_slice_up_to slice num = slice.take num ∧
          (get_slice_up_to slice num).length = num) := by
  constructor
  · intro h
    simp [get_slice_up_to, h]
  · intro h
    have h' : ¬ slice.length ≤ num := Nat.not_le.mpr h
    refine ⟨by simp [get_slice_up_to, h'], ?_⟩
    simp [get_slice_up_to, h', List.length_take, Nat.min_eq_left (Nat.le_of_lt h)]

/-- C10 witness: truncation on a concrete slice, in both regimes. -/
theorem get_slice_up_to_spec_witness :
    get_slice_up_to [10, 20, 30] 7 = [10, 20, 30] ∧
      get_slice_up_to [10, 20, 30] 2 = List.take 2 [10, 20, 30] :=
  ⟨(get_slice_up_to_spec [10, 20, 30] 7).1 (by decide),
    ((get_slice_up_to_spec [10, 20, 30] 2).2 (by decide)).1⟩

/-- C5: every scanned unit's canonical name is a key of the built graph. -/
theorem every_unit_canonical_name_is_key (files : List File) (f : File)
    (hf : f ∈ files) :
    extract_filename_from_path f.name ∈
      (DependencyAnalyzer.make files).modules_inclusion.keys :=
  (mem_makeGraph_keys files _).mpr ⟨f, hf, Or.inl rfl⟩

/-- C5 witness: a unit with no references still appears as a graph key. -/
theorem every_unit_canonical_name_is_key_witness :
    extract_filename_from_path (str "src/foo.h") ∈
      (DependencyAnalyzer.make [⟨str "src/foo.h", []⟩]).modules_inclusion.keys :=
  every_unit_canonical_name_is_key [⟨str "src/foo.h", []⟩] ⟨str "src/foo.h", []⟩
    (List.mem_cons_self _ _)

/-- C3: when scanned identities are pairwise distinct (the spec's data-model
invariant), a node's including-set size in the built graph equals the number
of scanned units that listed the node's canonical name among their
(canonicalized) references — a unit counts once however often it repeats a
reference. -/
theorem direct_count_eq_distinct_units (files : List File) (n : Str)
    (hnd : (files.map File.name).Nodup) :
    ((DependencyAnalyzer.make files).modules_inclusion.incl n).length =
      files.countP (fun f => decide (n ∈ f.used_modules.map extract_filename_from_path)) := by
  have hincl : (DependencyAnalyzer.make files).modules_inclusion.incl n =
      (makeGraph files).incl n := rfl
  rw [hincl]
  set p : File → Bool :=
    fun f => decide (n ∈ f.used_modules.map extract_filename_from_path) with hp
  have hmem : ∀ x, x ∈ (makeGraph files).incl n ↔ x ∈ (files.filter p).map File.name := by
    intro x
    rw [mem_makeGraph_incl]
    simp only [List.mem_map, List.mem_filter, hp, decide_eq_true_eq]
    tauto
  have hnd2 : ((files.filter p).map File.name).Nodup := by
    refine List.Nodup.sublist ?_ hnd
    exact List.Sublist.map File.name (List.filter_sublist files)
  have hperm : List.Perm ((makeGraph files).incl n) ((files.filter p).map File.name) :=
    (List.perm_ext_iff_of_nodup (nodup_makeGraph_incl files n) hnd2).mpr hmem
  rw [hperm.length_eq, List.length_map, List.countP_eq_length_filter]

/-- C3 witness: one unit repeating a reference (also through a path spelling)
still counts once. -/
theorem direct_count_eq_distinct_units_witness :
    ((DependencyAnalyzer.make
        [⟨str "m", [str "x", str "x", str "sub/x"]⟩, ⟨str "k", [str "x"]⟩]).modules_inclusion.incl
      (str "x")).length =
      List.countP (fun f : File => decide ((str "x") ∈ f.used_modules.map extract_filename_from_path))
        [⟨str "m", [str "x", str "x", str "sub/x"]⟩, ⟨str "k", [str "x"]⟩] :=
  direct_count_eq_distinct_units
    [⟨str "m", [str "x", str "x", str "sub/x"]⟩, ⟨str "k", [str "x"]⟩] (str "x") (by decide)

/-- C2 counterexample: with a scanned unit at `src/a.h`, the graph key `a.h`
has a canonical name equal to the canonical name of that unit's identity, yet
`filter_outside_inclusions` discards it, because the code compares candidates
against raw identities rather than canonical names. -/
theorem filter_outside_canonical_counterexample :
    (DependencyAnalyzer.make [⟨str "src/a.h", []⟩]).modules_inclusion.keys = [str "a.h"] ∧
      extract_filename_from_path (str "a.h") =
        extract_filename_from_path (str "src/a.h") ∧
      filter_outside_inclusions (DependencyAnalyzer.make [⟨str "src/a.h", []⟩])
        [str "a.h"] = [] := by
  refine ⟨by decide, by decide, by decide⟩

/-- C2 as amended: `filter_outside_inclusions` returns exactly those candidate
nodes that equal the raw identity of some scanned unit (hence every
external-filtered ranking only contains nodes from the scanned-unit identity
set). -/
theorem filter_outside_inclusions_spec (A : DependencyAnalyzer)
    (included_files : List Str) (x : Str) :
    x ∈ filter_outside_inclusions A included_files ↔
      x ∈ included_files ∧ ∃ f ∈ A.files, f.name = x := by
  unfold filter_outside_inclusions
  simp only [List.mem_filter, List.mem_map, decide_eq_true_eq]

/-- C2 witness: a candidate equal to a scanned identity is kept. -/
theorem filter_outside_inclusions_spec_witness :
    str "a" ∈ filter_outside_inclusions
      (DependencyAnalyzer.make [⟨str "a", []⟩]) [str "a", str "ghost"] :=
  (filter_outside_inclusions_spec (DependencyAnalyzer.make [⟨str "a", []⟩])
      [str "a", str "ghost"] (str "a")).mpr
    ⟨List.mem_cons_self _ _, ⟨str "a", []⟩, List.mem_cons_self _ _, rfl⟩

theorem dfs_tree_of_mem (A : DependencyAnalyzer) (inc : Str)
    (hk : A.modules_inclusion.keys ≠ []) (hm : inc ∈ A.modules_inclusion.keys) :
    dfs_tree A inc = some (Except.ok (dfsRun (nbrOf A.modules_inclusion)
      (dfsFuel A.modules_inclusion inc) [[inc]] ⟨[], []⟩)) := by
  simp [dfs_tree, hk, hm]

theorem dfs_tree_of_not_mem (A : DependencyAnalyzer) (inc : Str)
    (hk : A.modules_inclusion.keys ≠ []) (hm : inc ∉ A.modules_inclusion.keys) :
    dfs_tree A inc = some (Except.error inc) := by
  simp [dfs_tree, hk, hm]

theorem impactEntries_ne_none (A : DependencyAnalyzer)
    (hk : A.modules_inclusion.keys ≠ []) :
    ∀ l, impactEntries A l ≠ none := by
  intro l
  induction l with
  | nil => simp [impactEntries]
  | cons inc rest ih =>
    rw [impactEntries]
    by_cases hm : inc ∈ A.modules_inclusion.keys
    · rw [dfs_tree_of_mem A inc hk hm]
      rcases h : impactEntries A rest with _ | es
      · exact absurd h ih
      · simp [h]
    · rw [dfs_tree_of_not_mem A inc hk hm]
      exact ih

theorem impactEntries_names (A : DependencyAnalyzer)
    (hk : A.modules_inclusion.keys ≠ []) :
    ∀ l es, impactEntries A l = some es →
      es.map DependencyEntry.file_name =
        l.filter (fun c => decide (c ∈ A.modules_inclusion.keys)) := by
  intro l
  induction l with
  | nil => intro es h; simp [impactEntries] at h; simp [← h]
  | cons inc rest ih =>
    intro es h
    rw [impactEntries] at h
    by_cases hm : inc ∈ A.modules_inclusion.keys
    · rw [dfs_tree_of_mem A inc hk hm] at h
      rcases hrest : impactEntries A rest with _ | es'
      · exact absurd hrest (impactEntries_ne_none A hk rest)
      · rw [hrest] at h
        simp only at h
        have hes : es = impactEntry A inc
            (dfsRun (nbrOf A.modules_inclusion) (dfsFuel A.modules_inclusion inc)
              [[inc]] ⟨[], []⟩) :: es' := (Option.some.inj h).symm
        subst hes
        rw [List.map_cons, ih es' hrest, List.filter_cons_of_pos (by simpa using hm)]
        rfl
    · rw [dfs_tree_of_not_mem A inc hk hm] at h
      rw [List.filter_cons_of_neg (by simpa using hm)]
      exact ih es h

theorem impactEntries_skip_missing (A : DependencyAnalyzer)
    (hk : A.modules_inclusion.keys ≠ []) :
    ∀ l, impactEntries A l =
      impactEntries A (l.filter (fun c => decide (c ∈ A.modules_inclusion.keys))) := by
  intro l
  induction l with
  | nil => rfl
  | cons inc rest ih =>
    by_cases hm : inc ∈ A.modules_inclusion.keys
    · rw [List.filter_cons_of_pos (by simpa using hm), impactEntries, impactEntries,
        dfs_tree_of_mem A inc hk hm, ← ih]
    · rw [List.filter_cons_of_neg (by simpa using hm), impactEntries,
        dfs_tree_of_not_mem A inc hk hm, ih]

/-- C8: each of the four ranking/impact queries hard-fails (the modelled
`assert!` panic, `none`, as opposed to an empty result list) exactly when the
graph has no nodes at all. -/
theorem empty_graph_hard_failure_iff (A : DependencyAnalyzer) :
    (get_sorted_inclusion A = none ↔ A.modules_inclusion.keys = []) ∧
      (get_sorted_inclusion_no_external A = none ↔ A.modules_inclusion.keys = []) ∧
      (get_sorted_impact A = none ↔ A.modules_inclusion.keys = []) ∧
      (get_sorted_impact_no_external A = none ↔ A.modules_inclusion.keys = []) := by
  by_cases hk : A.modules_inclusion.keys = []
  · simp [get_sorted_inclusion, get_sorted_inclusion_no_external, get_sorted_impact,
      get_sorted_impact_no_external, get_included_files, hk]
  · have hinc : get_included_files A = some A.modules_inclusion.keys := by
      simp [get_included_files, hk]
    refine ⟨?_, ?_, ?_, ?_⟩
    · simp [get_sorted_inclusion, hinc, hk]
    · simp [get_sorted_inclusion_no_external, hinc, hk]
    · rw [get_sorted_impact, hinc]
      simp only [get_sorted_impact_impl]
      rcases h : impactEntries A A.modules_inclusion.keys with _ | es
      · exact absurd h (impactEntries_ne_none A hk _)
      · simp [hk]
    · rw [get_sorted_impact_no_external, hinc]
      simp only [get_sorted_impact_impl]
      rcases h : impactEntries A
          (filter_outside_inclusions A A.modules_inclusion.keys) with _ | es
      · exact absurd h (impactEntries_ne_none A hk _)
      · simp [hk]

/-- C8 witness: on the empty scan the impact query hard-fails rather than
returning an empty list. -/
theorem empty_graph_hard_failure_iff_witness :
    get_sorted_impact (DependencyAnalyzer.make []) = none :=
  (empty_graph_hard_failure_iff (DependencyAnalyzer.make [])).2.2.1.mpr rfl

/-- C7: on a non-empty graph, candidates absent from the graph are simply
omitted (the result equals the result on the candidates that are graph keys),
the batch never hard-fails, and every graph-key candidate still produces an
entry in the returned ranking. -/
theorem missing_start_node_recoverable (A : DependencyAnalyzer)
    (cand : List Str) (hk : A.modules_inclusion.keys ≠ []) :
    get_sorted_impact_impl A cand =
        get_sorted_impact_impl A
          (cand.filter (fun c => decide (c ∈ A.modules_inclusion.keys))) ∧
      ∃ es, get_sorted_impact_impl A cand = some es ∧
        List.Perm (es.map DependencyEntry.file_name)
          (cand.filter (fun c => decide (c ∈ A.modules_inclusion.keys))) := by
  constructor
  · unfold get_sorted_impact_impl
    rw [← impactEntries_skip_missing A hk]
  · rcases h : impactEntries A cand with _ | es0
    · exact absurd h (impactEntries_ne_none A hk cand)
    · refine ⟨es0.insertionSort entryGE, ?_, ?_⟩
      · simp [get_sorted_impact_impl, h]
      · calc List.Perm ((es0.insertionSort entryGE).map DependencyEntry.file_name)
              (es0.map DependencyEntry.file_name) :=
            (List.perm_insertionSort entryGE es0).map DependencyEntry.file_name
        _ = _ := by rw [impactEntries_names A hk cand es0 h]

/-- C7 witness: a ghost candidate is dropped while the other candidate is
still ranked. -/
theorem missing_start_node_recoverable_witness :
    get_sorted_impact_impl (DependencyAnalyzer.make [⟨str "a", []⟩])
        [str "ghost", str "a"] =
      get_sorted_impact_impl (DependencyAnalyzer.make [⟨str "a", []⟩])
        (List.filter
          (fun c => decide (c ∈ (DependencyAnalyzer.make
            [⟨str "a", []⟩]).modules_inclusion.keys))
          [str "ghost", str "a"]) :=
  (missing_start_node_recoverable (DependencyAnalyzer.make [⟨str "a", []⟩])
    [str "ghost", str "a"] (by decide)).1

/-- C1 counterexample: with a unit scanned at `d/b` (canonical node `b`, which
is itself included by `c`), the implemented traversal from `a` visits the raw
path `d/b` and stops — it does not continue at the canonical node `b`, so it
never reaches `c` — while the spec-described canonicalizing traversal visits
`a`, `b`, `c`. -/
theorem dfs_raw_path_key_counterexample :
    dfs_tree (DependencyAnalyzer.make [⟨str "d/b", [str "a"]⟩, ⟨str "c", [str "b"]⟩])
        (str "a") =
      some (Except.ok ⟨[str "d/b", str "a"], [str "a", str "d/b"]⟩) ∧
      str "d/b" ∈ [str "a", str "d/b"] ∧ str "b" ∉ [str "a", str "d/b"] ∧
      dfs_tree_specCanonical
          (DependencyAnalyzer.make [⟨str "d/b", [str "a"]⟩, ⟨str "c", [str "b"]⟩])
          (str "a") =
        some (Except.ok ⟨[str "c", str "b", str "a"], [str "a", str "b", str "c"]⟩) ∧
      dfs_tree (DependencyAnalyzer.make [⟨str "d/b", [str "a"]⟩, ⟨str "c", [str "b"]⟩])
          (str "a") ≠
        dfs_tree_specCanonical
          (DependencyAnalyzer.make [⟨str "d/b", [str "a"]⟩, ⟨str "c", [str "b"]⟩])
          (str "a") :=
  ⟨by decide, by decide, by decide, by decide, by decide⟩

/-- C1 as amended: the traversal uses each path of an including-set directly
(uncanonicalized) as the next traversal key: every visited node other than the
start was entered as a raw element of a visited node's including-set, and
every raw element of a visited node's including-set is itself visited. -/
theorem dfs_traversal_uses_raw_paths (A : DependencyAnalyzer) (start : Str)
    (t : DfsState) (h : dfs_tree A start = some (Except.ok t)) :
    start ∈ t.order ∧
      (∀ v ∈ t.order, v = start ∨ ∃ u ∈ t.order, v ∈ nbrOf A.modules_inclusion u) ∧
      (∀ u ∈ t.order, ∀ p ∈ nbrOf A.modules_inclusion u, p ∈ t.order) := by
  have hrev : t.visited = t.order.reverse := (dfs_tree_nodup A start t h).1
  have hmemiff : ∀ x, x ∈ t.order ↔ x ∈ t.visited := by
    intro x
    rw [hrev, List.mem_reverse]
  refine ⟨?_, ?_, ?_⟩
  · exact (hmemiff start).mpr (dfs_tree_start_mem A start t h)
  · intro v hv
    rcases dfs_tree_sound A start t h v ((hmemiff v).mp hv) with h' | ⟨u, hu, hvu⟩
    · exact Or.inl h'
    · exact Or.inr ⟨u, (hmemiff u).mpr hu, hvu⟩
  · intro u hu p hp
    exact (hmemiff p).mpr
      (dfs_tree_closed A start t h u ((hmemiff u).mp hu) p hp)

/-- C1 witness: in the counterexample graph, the raw path `d/b` (an element of
`a`'s including-set) is in the visit order. -/
theorem dfs_traversal_uses_raw_paths_witness :
    str "d/b" ∈ (⟨[str "d/b", str "a"], [str "a", str "d/b"]⟩ : DfsState).order :=
  (dfs_traversal_uses_raw_paths
      (DependencyAnalyzer.make [⟨str "d/b", [str "a"]⟩, ⟨str "c", [str "b"]⟩])
      (str "a") ⟨[str "d/b", str "a"], [str "a", str "d/b"]⟩ (by decide)).2.2
    (str "a") (by decide) (str "d/b") (by decide)

theorem countP_le_one_of_nodup {l : List Str} (h : l.Nodup) (v : Str) :
    l.countP (fun x => decide (x = v)) ≤ 1 := by
  induction l with
  | nil => simp
  | cons a t ih =>
    have ⟨hna, hnd⟩ := List.nodup_cons.mp h
    by_cases hav : a = v
    · subst hav
      rw [List.countP_cons_of_pos _ _ (by simp)]
      have hz : t.countP (fun x => decide (x = a)) = 0 := by
        rw [List.countP_eq_zero]
        intro x hx
        simp only [decide_eq_true_eq]
        intro hxa
        exact hna (hxa ▸ hx)
      omega
    · rw [List.countP_cons_of_neg _ _ (by simpa using hav)]
      exact ih hnd

/-- C4: a successful traversal never re-enters or re-records a node (the visit
order is duplicate-free, so each graph node appears at most once, and the
visited set is exactly the recorded order), and the traversal terminates: any
fuel beyond `dfsFuel` yields the same finished state, cycles notwithstanding. -/
theorem dfs_terminates_visits_once (A : DependencyAnalyzer) (start : Str)
    (t : DfsState) (h : dfs_tree A start = some (Except.ok t)) :
    t.order.Nodup ∧ (∀ v, t.order.countP (fun x => decide (x = v)) ≤ 1) ∧
      t.visited = t.order.reverse ∧
      (∀ f, dfsFuel A.modules_inclusion start ≤ f →
        dfsRun (nbrOf A.modules_inclusion) f [[start]] ⟨[], []⟩ = t) := by
  obtain ⟨hrev, hnd⟩ := dfs_tree_nodup A start t h
  have hord : t.order.Nodup := by
    rw [hrev] at hnd
    exact List.nodup_reverse.mp hnd
  refine ⟨hord, ?_, hrev, dfs_tree_fuel_stable A start t h⟩
  intro v
  exact countP_le_one_of_nodup hord v

/-- C4 witness: a two-node reference cycle (`A` includes `B`, `B` includes `A`)
terminates with the duplicate-free visit order `[A, B]`. -/
theorem dfs_terminates_visits_once_witness :
    (⟨[str "B", str "A"], [str "A", str "B"]⟩ : DfsState).order.Nodup :=
  (dfs_terminates_visits_once
      (DependencyAnalyzer.make [⟨str "A", [str "B"]⟩, ⟨str "B", [str "A"]⟩])
      (str "A") ⟨[str "B", str "A"], [str "A", str "B"]⟩ (by decide)).1

/-- C6 counterexample: a unit `a` that includes itself has direct-inclusion
count 1 but transitive impact 0 (the impacted set excludes the start node), so
impact is not always at least the direct count. -/
theorem impact_ge_direct_counterexample :
    get_sorted_impact_no_external (DependencyAnalyzer.make [⟨str "a", [str "a"]⟩]) =
        some [⟨str "a", ∅⟩] ∧
      get_sorted_inclusion_no_external (DependencyAnalyzer.make [⟨str "a", [str "a"]⟩]) =
        some [⟨str "a", {str "a"}⟩] ∧
      (∅ : Finset Str).card < ({str "a"} : Finset Str).card :=
  ⟨by decide, by decide, by decide⟩

/-- C6 as amended: for a graph node whose including-set does not contain the
node itself, the scanned-restricted impacted set of its traversal is at least
as large as its direct including-set (direct includers are scanned identities
and are all reachable, hence in the impacted set). -/
theorem impact_ge_direct_of_no_self_include (files : List File) (n : Str)
    (hmem : n ∈ (DependencyAnalyzer.make files).modules_inclusion.keys)
    (hself : n ∉ (DependencyAnalyzer.make files).modules_inclusion.incl n) :
    ∃ t, dfs_tree (DependencyAnalyzer.make files) n = some (Except.ok t) ∧
      ((DependencyAnalyzer.make files).modules_inclusion.incl n).toFinset.card ≤
        (impactEntry (DependencyAnalyzer.make files) n t).including_files_paths.card := by
  have hk : (DependencyAnalyzer.make files).modules_inclusion.keys ≠ [] :=
    List.ne_nil_of_mem hmem
  have h := dfs_tree_of_mem (DependencyAnalyzer.make files) n hk hmem
  refine ⟨_, h, ?_⟩
  refine Finset.card_le_card ?_
  intro p hp
  have hp' : p ∈ (DependencyAnalyzer.make files).modules_inclusion.incl n :=
    List.mem_toFinset.mp hp
  have hnbr : p ∈ nbrOf (DependencyAnalyzer.make files).modules_inclusion n := by
    unfold nbrOf
    rw [if_pos hmem]
    exact hp'
  have hvis : p ∈ (dfsRun (nbrOf (DependencyAnalyzer.make files).modules_inclusion)
      (dfsFuel (DependencyAnalyzer.make files).modules_inclusion n) [[n]] ⟨[], []⟩).visited :=
    dfs_tree_closed (DependencyAnalyzer.make files) n _ h n
      (dfs_tree_start_mem (DependencyAnalyzer.make files) n _ h) p hnbr
  have horder : p ∈ (dfsRun (nbrOf (DependencyAnalyzer.make files).modules_inclusion)
      (dfsFuel (DependencyAnalyzer.make files).modules_inclusion n) [[n]] ⟨[], []⟩).order := by
    rw [(dfs_tree_nodup (DependencyAnalyzer.make files) n _ h).1] at hvis
    exact List.mem_reverse.mp hvis
  have hne : p ≠ n := fun e => hself (e ▸ hp')
  have hname : p ∈ files.map File.name := makeGraph_incl_sub_names files p n hp'
  unfold impactEntry
  rw [List.mem_toFinset, List.mem_filter, List.mem_filter]
  exact ⟨⟨horder, by simpa using hne⟩, by simpa using hname⟩

/-- C6 witness: a node with one (non-self) includer has impact at least 1. -/
theorem impact_ge_direct_of_no_self_include_witness :
    ∃ t, dfs_tree (DependencyAnalyzer.make [⟨str "m", [str "h"]⟩]) (str "h") =
        some (Except.ok t) ∧
      ((DependencyAnalyzer.make
          [⟨str "m", [str "h"]⟩]).modules_inclusion.incl (str "h")).toFinset.card ≤
        (impactEntry (DependencyAnalyzer.make [⟨str "m", [str "h"]⟩]) (str "h")
          t).including_files_paths.card :=
  impact_ge_direct_of_no_self_include [⟨str "m", [str "h"]⟩] (str "h")
    (by decide) (by decide)

end Scar
